import Mathlib

/-!
Verification of `scripts/package_skill.py`.

The script packages a "skill" directory into a `.skill` zip archive:

* `package_skill(skill_path, output_dir="dist")` resolves both paths,
  exits with status 1 (message on stderr) when `skill_path/SKILL.md`
  fails the `exists()` check, creates `output_dir` (parents, exist_ok),
  opens `<output_dir>/<skill_name>.skill` as a fresh zip archive,
  walks `skill_path` with `os.walk` pruning hidden directories and
  skipping hidden files, writes every remaining file under an archive
  name relative to `skill_path.parent`, prints a confirmation line with
  the output path and its on-disk byte size, and returns the path.
* `__main__` prints a usage line to stderr and exits with status 1 when
  fewer than two `argv` entries are present, otherwise calls
  `package_skill` with `argv[1]` and `argv[2]` (default `"dist"`).

The filesystem is modelled as a finite tree of directories and files.
Paths are lists of name components of a resolved absolute path (the
empty list is the filesystem root `/`).  File contents are modelled by
`FileData`: either raw bytes or a written zip archive; a zip archive
keeps its entry list (name and stored data) so that theorems can speak
about archive membership, and `FileData.size` models the on-disk byte
size `stat().st_size` of such a file.
-/

/-- Contents of a regular file: raw bytes, or a zip archive as written by
`zipfile.ZipFile`, holding its entries (archive name and stored data). -/
inductive FileData where
  | bytes (content : List Nat)
  | zip (entries : List (String × FileData))

/-- A filesystem node: a regular file or a directory with a (finite,
ordered) list of named children.  The child order models directory
enumeration order as seen by `os.walk`. -/
inductive FSTree where
  | file (data : FileData)
  | dir (children : List (String × FSTree))

mutual

/-- Modelled on-disk byte size of a file (`stat().st_size`): raw files
report their byte length; for archives the exact constants stand in for
the zip container overhead (end-of-central-directory, per-entry local
and central headers) and are immaterial to every claim, which only
compares this size with itself. -/
def FileData.size : FileData → Nat
  | .bytes b => b.length
  | .zip es => 22 + sizeEntries es

def sizeEntries : List (String × FileData) → Nat
  | [] => 0
  | (n, d) :: es => 76 + 2 * n.length + FileData.size d + sizeEntries es

end

/-- First child of the given name, if any (directory entry lookup). -/
def findChild : List (String × FSTree) → String → Option FSTree
  | [], _ => none
  | c :: cs, n => if c.1 == n then some c.2 else findChild cs n

/-- Replace the first child of the given name (or append a new one). -/
def setChild : List (String × FSTree) → String → FSTree → List (String × FSTree)
  | [], n, t => [(n, t)]
  | c :: cs, n, t => if c.1 == n then (n, t) :: cs else c :: setChild cs n t

/-- Resolve a path to the node it denotes, when it exists. -/
def FSTree.lookup : FSTree → List String → Option FSTree
  | t, [] => some t
  | .file _, _ :: _ => none
  | .dir cs, n :: rest =>
    match findChild cs n with
    | some c => c.lookup rest
    | none => none

/-- `Path.mkdir(parents=True, exist_ok=True)`: create the directory and
every missing parent; succeed without change when the target already is
a directory; fail (`none`, filesystem unchanged) when the target or one
of its ancestors exists as a regular file. -/
def mkdirp : FSTree → List String → Option FSTree
  | t@(.dir _), [] => some t
  | .file _, _ => none
  | .dir cs, n :: rest =>
    match findChild cs n with
    | some c =>
      match mkdirp c rest with
      | some c' => some (.dir (setChild cs n c'))
      | none => none
    | none =>
      match mkdirp (.dir []) rest with
      | some c' => some (.dir (cs ++ [(n, c')]))
      | none => none

/-- `open(path, "wb")`-style write used by `zipfile.ZipFile(..., "w")`:
create or truncate the regular file at `p`.  Fails (`none`) when the
path is the root, a strict ancestor is missing or is a regular file, or
the target itself is a directory. -/
def writeFile : FSTree → List String → FileData → Option FSTree
  | .file _, _, _ => none
  | .dir _, [], _ => none
  | .dir cs, [n], d =>
    match findChild cs n with
    | some (.dir _) => none
    | some (.file _) => some (.dir (setChild cs n (.file d)))
    | none => some (.dir (cs ++ [(n, .file d)]))
  | .dir cs, n :: rest₁ :: rest₂, d =>
    match findChild cs n with
    | some c =>
      match writeFile c (rest₁ :: rest₂) d with
      | some c' => some (.dir (setChild cs n c'))
      | none => none
    | none => none

/-- Whether a name is hidden in the sense of the script:
`startswith(".")`, i.e. the first character is `'.'`. -/
def hiddenName (n : String) : Bool :=
  match n.toList with
  | '.' :: _ => true
  | _ => false

/-- The file names a directory listing contributes to the archive: the
non-directory entries (`files` of the `os.walk` triple, in listing
order) with the hidden ones skipped (`if file.startswith("."):
continue`). -/
def visibleFileNames : List (String × FSTree) → List String
  | [] => []
  | (n, .file _) :: rest =>
    if hiddenName n then visibleFileNames rest else n :: visibleFileNames rest
  | (_, .dir _) :: rest => visibleFileNames rest

mutual

/-- The `os.walk(skill_path)` loop of lines 30–38, fused with its two
filters, producing the relative component paths of the files written to
the archive in visit order: the non-hidden regular files of each
directory first (`for file in files`, hidden names skipped), then the
non-hidden subdirectories depth-first (`dirs[:] = [d for d in dirs if
not d.startswith(".")]`).  Walking a non-directory yields nothing, as
`os.walk` does. -/
def walkRel : FSTree → List (List String)
  | .file _ => []
  | .dir cs => (visibleFileNames cs).map (fun n => [n]) ++ walkSub cs

def walkSub : List (String × FSTree) → List (List String)
  | [] => []
  | (n, t) :: rest =>
    (match t with
     | .dir _ => if hiddenName n then [] else (walkRel t).map (fun q => n :: q)
     | .file _ => []) ++ walkSub rest

end

/-- Data stored at a path, as read by `zf.write` (only ever applied to
paths the walk produced, which denote regular files). -/
def readData (fs : FSTree) (p : List String) : FileData :=
  match fs.lookup p with
  | some (.file d) => d
  | _ => .bytes []

/-- `str(...)` of a relative path: components joined by forward
slashes. -/
def relStr : List String → String
  | [] => ""
  | [x] => x
  | x :: xs :: ys => x ++ "/" ++ relStr (xs :: ys)

/-- `str(Path(...))` for a resolved absolute path. -/
def pathStr (p : List String) : String := "/" ++ relStr p

/-- `Path.name`: final path component (`""` for the root). -/
def lastName (p : List String) : String := p.getLast?.getD ""

/-- Observable process state of one invocation: the filesystem plus the
lines printed to standard output and standard error. -/
structure PackState where
  fs : FSTree
  stdout : List String
  stderr : List String

/-- Outcome of running `package_skill` (or the `__main__` wrapper):
normal return with the returned string, `sys.exit(1)`, or an unhandled
filesystem error propagating out. -/
inductive PackResult where
  | ok (ret : String) (st : PackState)
  | exit1 (st : PackState)
  | oserror (st : PackState)

/-- `package_skill(skill_path, output_dir)` on resolved paths over the
filesystem `fs`, line by line:

* line 21–23: `if not (skill_path / "SKILL.md").exists(): ... sys.exit(1)`;
* line 25: `skill_name = skill_path.name`;
* line 26: `output_dir.mkdir(parents=True, exist_ok=True)`;
* line 27: `output_file = output_dir / f"{skill_name}.skill"`;
* line 29: `zipfile.ZipFile(output_file, "w", ...)` creates the (still
  empty) archive file on disk before the walk runs;
* lines 30–38: the walk over the filesystem as of line 29, adding each
  file under `str(file_path.relative_to(skill_path.parent))`;
* closing the `with` block writes the final archive contents;
* line 40: prints the output path and its `stat().st_size`;
* line 41: returns `str(output_file)`. -/
def package_skill (fs : FSTree) (skill_path : List String)
    (output_dir : List String) : PackResult :=
  if (fs.lookup (skill_path ++ ["SKILL.md"])).isNone then
    .exit1 ⟨fs, [], ["Error: " ++ pathStr skill_path ++ "/SKILL.md not found"]⟩
  else
    let skill_name := lastName skill_path
    match mkdirp fs output_dir with
    | none => .oserror ⟨fs, [], []⟩
    | some fs₁ =>
      let output_file := output_dir ++ [skill_name ++ ".skill"]
      match writeFile fs₁ output_file (.zip []) with
      | none => .oserror ⟨fs₁, [], []⟩
      | some fs₂ =>
        let files := (walkRel ((fs₂.lookup skill_path).getD (.file (.bytes [])))).map
          (fun q => skill_path ++ q)
        let entries := files.map (fun p =>
          (relStr (p.drop skill_path.dropLast.length), readData fs₂ p))
        match writeFile fs₂ output_file (.zip entries) with
        | none => .oserror ⟨fs₂, [], []⟩
        | some fs₃ =>
          .ok (pathStr output_file)
            ⟨fs₃,
             ["Packaged: " ++ pathStr output_file ++ " ("
               ++ toString (FileData.size (readData fs₃ output_file)) ++ " bytes)"],
             []⟩

/-- Split a character list on `/` into raw components. -/
def splitSlash : List Char → List Char → List String
  | [], cur => [String.mk cur.reverse]
  | '/' :: rest, cur => String.mk cur.reverse :: splitSlash rest []
  | c :: rest, cur => splitSlash rest (c :: cur)

/-- Split a path string on `/`, dropping empty components. -/
def splitPath (s : String) : List String :=
  (splitSlash s.toList []).filter (fun c => c ≠ "")

/-- Collapse `.` and `..` components (`..` at the root stays at the root). -/
def normalizeComps (l : List String) : List String :=
  l.foldl (fun acc c =>
    if c == "." then acc else if c == ".." then acc.dropLast else acc ++ [c]) []

/-- `Path(s).resolve()` against the current working directory (symlinks
are not part of the model). -/
def resolvePath (cwd : List String) (s : String) : List String :=
  match s.toList with
  | '/' :: _ => normalizeComps (splitPath s)
  | _ => normalizeComps (cwd ++ splitPath s)

/-- The `__main__` block, lines 44–51: with fewer than two `argv`
entries, print the usage line to stderr and exit with status 1;
otherwise call `package_skill` on `argv[1]` and `argv[2]` (defaulting to
`"dist"`), both resolved against the working directory. -/
def mainEntry (fs : FSTree) (cwd : List String) (argv : List String) : PackResult :=
  if argv.length < 2 then
    .exit1 ⟨fs, [],
      ["Usage: " ++ argv.headD "" ++ " <skill-path> [output-dir]"]⟩
  else
    let skill := argv.getD 1 ""
    let out := if argv.length > 2 then argv.getD 2 "" else "dist"
    package_skill fs (resolvePath cwd skill) (resolvePath cwd out)

/-! ### Observation helpers -/

/-- Whether the outcome is a normal return. -/
def PackResult.isOk : PackResult → Bool
  | .ok _ _ => true
  | _ => false

/-- Whether the outcome is `sys.exit(1)`. -/
def PackResult.isExit1 : PackResult → Bool
  | .exit1 _ => true
  | _ => false

/-- Final process state of an outcome. -/
def PackResult.state : PackResult → PackState
  | .ok _ st => st
  | .exit1 st => st
  | .oserror st => st

/-- Returned string of a normal return (`""` otherwise). -/
def PackResult.ret : PackResult → String
  | .ok r _ => r
  | _ => ""

/-- Entry names of the zip archive stored at `p`, `[]` when `p` is not a
written archive. -/
def archiveNames (fs : FSTree) (p : List String) : List String :=
  match fs.lookup p with
  | some (.file (.zip es)) => es.map (fun e => e.1)
  | _ => []

/-- Whether `p` denotes a regular file. -/
def isFileAt (fs : FSTree) (p : List String) : Bool :=
  match fs.lookup p with
  | some (.file _) => true
  | _ => false

/-- Whether `p` denotes a directory. -/
def isDirAt (fs : FSTree) (p : List String) : Bool :=
  match fs.lookup p with
  | some (.dir _) => true
  | _ => false

/-- Whether `p` exists at all (`Path.exists()`). -/
def existsAt (fs : FSTree) (p : List String) : Bool :=
  (fs.lookup p).isSome

/-- `isInit q p`: `q` is an initial segment of `p` (the location `p` is
`q` itself or lies below it). -/
def isInit : List String → List String → Bool
  | [], _ => true
  | _ :: _, [] => false
  | a :: as, b :: bs => a == b && isInit as bs

/-- All components non-hidden. -/
def allVisible (q : List String) : Bool := q.all (fun c => !hiddenName c)

/-- Directory listings with no repeated names, recursively (the
well-formedness every real directory tree enjoys). -/
def nodupKeys : List (String × FSTree) → Bool
  | [] => true
  | c :: cs => !(cs.any (fun c' => c'.1 == c.1)) && nodupKeys cs

mutual

/-- Well-formed tree: no directory holds two children of the same name. -/
def FSTree.wf : FSTree → Bool
  | .file _ => true
  | .dir cs => nodupKeys cs && wfChildren cs

def wfChildren : List (String × FSTree) → Bool
  | [] => true
  | (_, t) :: rest => t.wf && wfChildren rest

end
/-! ### Concrete fixtures -/

/-- The spec's end-to-end example: `skills/demo/` holding `SKILL.md` and
`assets/logo.png`, relative to the working directory at the root. -/
def demoFS : FSTree :=
  .dir [("skills", .dir [("demo", .dir
    [("SKILL.md", .file (.bytes [1, 2])),
     ("assets", .dir [("logo.png", .file (.bytes [3, 4, 5]))])])])]

/-- Running the packager on the example with no `output-dir` argument. -/
def demoRun : PackResult :=
  mainEntry demoFS [] ["scripts/package_skill.py", "skills/demo"]

/-- A minimal packageable skill directory `/s`. -/
def wFS : FSTree := .dir [("s", .dir [("SKILL.md", .file (.bytes [1]))])]

/-- Packaging `/s` into itself (`output_dir = skill_path`). -/
def selfRun : PackResult := package_skill wFS ["s"] ["s"]

/-- A tree where `/s/SKILL.md` exists but is a directory, not a regular
file. -/
def dirManifestFS : FSTree := .dir [("s", .dir [("SKILL.md", .dir [])])]

/-- `sub` is a prefix of `hay` (character lists). -/
def chPre : List Char → List Char → Bool
  | [], _ => true
  | _ :: _, [] => false
  | a :: as, b :: bs => a == b && chPre as bs

/-- `sub` occurs as a contiguous substring of `hay`. -/
def chSub (sub : List Char) : List Char → Bool
  | [] => chPre sub []
  | h :: rest => chPre sub (h :: rest) || chSub sub rest

/-- A tree with a hidden file, a hidden subdirectory with contents, and
a visible nested file. -/
def hiddenFS : FSTree :=
  .dir [("SKILL.md", .file (.bytes [])),
        (".env", .file (.bytes [])),
        (".git", .dir [("config", .file (.bytes []))]),
        ("a", .dir [("b", .file (.bytes []))])]


/-! ### Lemmas -/

/-! ### Path and lookup lemmas -/

theorem isInit_refl (p : List String) : isInit p p = true := by
  induction p with
  | nil => rfl
  | cons a as ih => simp [isInit, ih]

theorem isInit_append (p q : List String) : isInit p (p ++ q) = true := by
  induction p with
  | nil => rfl
  | cons a as ih => simp [isInit, ih]

theorem length_le_of_isInit {p q : List String} (h : isInit p q = true) :
    p.length ≤ q.length := by
  induction p generalizing q with
  | nil => simp
  | cons a as ih =>
    cases q with
    | nil => simp [isInit] at h
    | cons b bs =>
      simp only [isInit, Bool.and_eq_true] at h
      simpa using ih h.2

theorem isInit_snoc_self (p : List String) (n : String) :
    isInit (p ++ [n]) p = false := by
  by_contra h
  have := @length_le_of_isInit (p ++ [n]) p (by simpa using h)
  simp at this

theorem eq_of_isInit_of_length {p q : List String} (h : isInit p q = true)
    (hl : q.length ≤ p.length) : p = q := by
  induction p generalizing q with
  | nil => cases q with
    | nil => rfl
    | cons b bs => simp at hl
  | cons a as ih =>
    cases q with
    | nil => simp [isInit] at h
    | cons b bs =>
      simp only [isInit, Bool.and_eq_true, beq_iff_eq] at h
      simp only [List.length_cons, Nat.add_le_add_iff_right] at hl
      rw [h.1, ih h.2 hl]

theorem isInit_trans {p q r : List String} (h1 : isInit p q = true)
    (h2 : isInit q r = true) : isInit p r = true := by
  induction p generalizing q r with
  | nil => rfl
  | cons a as ih =>
    cases q with
    | nil => simp [isInit] at h1
    | cons b bs =>
      cases r with
      | nil => simp [isInit] at h2
      | cons c cs =>
        simp only [isInit, Bool.and_eq_true, beq_iff_eq] at h1 h2 ⊢
        exact ⟨h1.1.trans h2.1, ih h1.2 h2.2⟩

theorem lookup_append (fs : FSTree) (p q : List String) :
    fs.lookup (p ++ q) = (fs.lookup p).bind (fun t => t.lookup q) := by
  induction p generalizing fs with
  | nil => simp [FSTree.lookup]
  | cons a as ih =>
    cases fs with
    | file d => simp [FSTree.lookup]
    | dir cs =>
      simp only [List.cons_append, FSTree.lookup]
      cases findChild cs a with
      | none => simp
      | some c => simpa using ih c

theorem lookup_isSome_of_append {fs : FSTree} {p q : List String}
    (h : (fs.lookup (p ++ q)).isSome) : (fs.lookup p).isSome := by
  rw [lookup_append] at h
  cases hp : fs.lookup p with
  | none => rw [hp] at h; simp at h
  | some t => simp
/-! ### Directory-listing lemmas -/

theorem isInit_iff_append {q p : List String} :
    isInit q p = true ↔ ∃ e, p = q ++ e := by
  constructor
  · intro h
    induction q generalizing p with
    | nil => exact ⟨p, rfl⟩
    | cons a as ih =>
      cases p with
      | nil => simp [isInit] at h
      | cons b bs =>
        simp only [isInit, Bool.and_eq_true, beq_iff_eq] at h
        obtain ⟨e, he⟩ := ih h.2
        exact ⟨e, by rw [h.1, he]; rfl⟩
  · rintro ⟨e, rfl⟩
    exact isInit_append q e

theorem findChild_setChild_self (cs : List (String × FSTree)) (n : String)
    (t : FSTree) : findChild (setChild cs n t) n = some t := by
  induction cs with
  | nil => simp [setChild, findChild]
  | cons c cs ih =>
    cases hc : (c.1 == n) with
    | true => simp [setChild, hc, findChild]
    | false => simp [setChild, hc, findChild, ih]

theorem findChild_setChild_other (cs : List (String × FSTree)) (n m : String)
    (t : FSTree) (h : m ≠ n) :
    findChild (setChild cs n t) m = findChild cs m := by
  induction cs with
  | nil => simp [setChild, findChild, Ne.symm h]
  | cons c cs ih =>
    cases hc : (c.1 == n) with
    | true =>
      have hcm : (c.1 == m) = false := by
        simp only [beq_iff_eq] at hc ⊢
        simp [hc, Ne.symm h]
      simp [setChild, hc, findChild, Ne.symm h, hcm]
    | false => simp [setChild, hc, findChild, ih]

theorem setChild_self_of_findChild {cs : List (String × FSTree)} {n : String}
    {t : FSTree} (h : findChild cs n = some t) : setChild cs n t = cs := by
  induction cs with
  | nil => simp [findChild] at h
  | cons c cs ih =>
    cases hc : (c.1 == n) with
    | true =>
      simp only [findChild, hc, if_true, Option.some.injEq] at h
      have : c = (n, t) := by
        cases c
        simp only [beq_iff_eq] at hc
        simp_all
      simp [setChild, hc, this]
    | false =>
      simp only [findChild, hc] at h
      simp only [Bool.false_eq_true, if_false] at h
      simp [setChild, hc, ih h]

theorem findChild_append_self {cs : List (String × FSTree)} {n : String}
    (t : FSTree) (h : findChild cs n = none) :
    findChild (cs ++ [(n, t)]) n = some t := by
  induction cs with
  | nil => simp [findChild]
  | cons c cs ih =>
    cases hc : (c.1 == n) with
    | true => simp [findChild, hc] at h
    | false =>
      simp only [findChild, hc] at h
      simp only [Bool.false_eq_true, if_false] at h
      simp [findChild, hc, ih h]

theorem findChild_append_other (cs : List (String × FSTree)) (n m : String)
    (t : FSTree) (h : m ≠ n) :
    findChild (cs ++ [(n, t)]) m = findChild cs m := by
  induction cs with
  | nil => simp [findChild, Ne.symm h]
  | cons c cs ih =>
    cases hc : (c.1 == m) with
    | true => simp [findChild, hc]
    | false => simp [findChild, hc, ih]
/-! ### `mkdirp` lemmas -/

theorem mkdirp_of_dir {fs : FSTree} {p : List String} {ds : List (String × FSTree)}
    (h : fs.lookup p = some (.dir ds)) : mkdirp fs p = some fs := by
  induction p generalizing fs with
  | nil =>
    simp only [FSTree.lookup, Option.some.injEq] at h
    subst h
    rfl
  | cons n rest ih =>
    cases fs with
    | file d => simp [FSTree.lookup] at h
    | dir cs =>
      simp only [FSTree.lookup] at h
      cases hf : findChild cs n with
      | none => simp [hf] at h
      | some c =>
        simp only [hf] at h
        simp only [mkdirp, hf, ih h, setChild_self_of_findChild hf]

theorem mkdirp_isDir {fs fs' : FSTree} {p : List String}
    (h : mkdirp fs p = some fs') : ∃ ds, fs'.lookup p = some (.dir ds) := by
  induction p generalizing fs fs' with
  | nil =>
    cases fs with
    | file d => simp [mkdirp] at h
    | dir cs =>
      simp only [mkdirp, Option.some.injEq] at h
      exact ⟨cs, by rw [← h]; rfl⟩
  | cons n rest ih =>
    cases fs with
    | file d => simp [mkdirp] at h
    | dir cs =>
      simp only [mkdirp] at h
      cases hf : findChild cs n with
      | some c =>
        simp only [hf] at h
        cases hm : mkdirp c rest with
        | none => simp [hm] at h
        | some c' =>
          simp only [hm, Option.some.injEq] at h
          obtain ⟨ds, hds⟩ := ih hm
          refine ⟨ds, ?_⟩
          rw [← h]
          simp [FSTree.lookup, findChild_setChild_self, hds]
      | none =>
        simp only [hf] at h
        cases hm : mkdirp (.dir []) rest with
        | none => simp [hm] at h
        | some c' =>
          simp only [hm, Option.some.injEq] at h
          obtain ⟨ds, hds⟩ := ih hm
          refine ⟨ds, ?_⟩
          rw [← h]
          simp [FSTree.lookup, findChild_append_self _ hf, hds]

theorem mkdirp_frame {fs fs' : FSTree} {p : List String}
    (h : mkdirp fs p = some fs') :
    ∀ q, isInit q p = false → fs'.lookup q = fs.lookup q := by
  induction p generalizing fs fs' with
  | nil =>
    cases fs with
    | file d => simp [mkdirp] at h
    | dir cs =>
      simp only [mkdirp, Option.some.injEq] at h
      intro q _
      rw [← h]
  | cons n rest ih =>
    cases fs with
    | file d => simp [mkdirp] at h
    | dir cs =>
      simp only [mkdirp] at h
      intro q hq
      cases q with
      | nil => simp [isInit] at hq
      | cons m qrest =>
        cases hf : findChild cs n with
        | some c =>
          simp only [hf] at h
          cases hm : mkdirp c rest with
          | none => simp [hm] at h
          | some c' =>
            simp only [hm, Option.some.injEq] at h
            subst h
            by_cases hmn : m = n
            · subst hmn
              simp only [isInit, beq_self_eq_true, Bool.true_and] at hq
              simp [FSTree.lookup, findChild_setChild_self, hf, ih hm qrest hq]
            · simp [FSTree.lookup, findChild_setChild_other _ _ _ _ hmn]
        | none =>
          simp only [hf] at h
          cases hm : mkdirp (.dir []) rest with
          | none => simp [hm] at h
          | some c' =>
            simp only [hm, Option.some.injEq] at h
            subst h
            by_cases hmn : m = n
            · subst hmn
              simp only [isInit, beq_self_eq_true, Bool.true_and] at hq
              have hq' := ih hm qrest hq
              cases qrest with
              | nil => simp [isInit] at hq
              | cons x xs =>
                simp only [FSTree.lookup, findChild] at hq'
                simp [FSTree.lookup, findChild_append_self _ hf, hq', hf]
            · simp [FSTree.lookup, findChild_append_other _ _ _ _ hmn]

theorem lookup_isSome_of_isInit {fs : FSTree} {q p : List String}
    (hin : isInit q p = true) (h : (fs.lookup p).isSome) :
    (fs.lookup q).isSome := by
  obtain ⟨e, rfl⟩ := isInit_iff_append.1 hin
  exact lookup_isSome_of_append h

theorem mkdirp_mono {fs fs' : FSTree} {p : List String}
    (h : mkdirp fs p = some fs') :
    ∀ q, (fs.lookup q).isSome → (fs'.lookup q).isSome := by
  intro q hq
  cases hin : isInit q p with
  | true =>
    obtain ⟨ds, hds⟩ := mkdirp_isDir h
    exact lookup_isSome_of_isInit hin (by simp [hds])
  | false => rw [mkdirp_frame h q hin]; exact hq
/-! ### `writeFile` lemmas -/

theorem writeFile_self {fs fs' : FSTree} {p : List String} {d : FileData}
    (h : writeFile fs p d = some fs') : fs'.lookup p = some (.file d) := by
  induction p generalizing fs fs' with
  | nil => cases fs with
    | file _ => simp [writeFile] at h
    | dir _ => simp [writeFile] at h
  | cons n rest ih =>
    cases fs with
    | file _ => simp [writeFile] at h
    | dir cs =>
      cases rest with
      | nil =>
        simp only [writeFile] at h
        cases hf : findChild cs n with
        | some c =>
          cases c with
          | dir _ => simp [hf] at h
          | file d0 =>
            simp only [hf, Option.some.injEq] at h
            rw [← h]
            simp [FSTree.lookup, findChild_setChild_self]
        | none =>
          simp only [hf, Option.some.injEq] at h
          rw [← h]
          simp [FSTree.lookup, findChild_append_self _ hf]
      | cons r1 r2 =>
        simp only [writeFile] at h
        cases hf : findChild cs n with
        | none => simp [hf] at h
        | some c =>
          simp only [hf] at h
          cases hw : writeFile c (r1 :: r2) d with
          | none => simp [hw] at h
          | some c' =>
            simp only [hw, Option.some.injEq] at h
            rw [← h]
            simp [FSTree.lookup, findChild_setChild_self, ih hw]

theorem writeFile_frame {fs fs' : FSTree} {p : List String} {d : FileData}
    (h : writeFile fs p d = some fs') :
    ∀ q, isInit q p = false → isInit p q = false → fs'.lookup q = fs.lookup q := by
  induction p generalizing fs fs' with
  | nil => cases fs with
    | file _ => simp [writeFile] at h
    | dir _ => simp [writeFile] at h
  | cons n rest ih =>
    cases fs with
    | file _ => simp [writeFile] at h
    | dir cs =>
      intro q hq hp
      cases q with
      | nil => simp [isInit] at hq
      | cons m qrest =>
        by_cases hmn : m = n
        · subst hmn
          simp only [isInit, beq_self_eq_true, Bool.true_and] at hq hp
          cases rest with
          | nil =>
            -- `p = [m]`, so `isInit p q` means `qrest` arbitrary: `isInit [] qrest = true`
            simp [isInit] at hp
          | cons r1 r2 =>
            simp only [writeFile] at h
            cases hf : findChild cs m with
            | none => simp [hf] at h
            | some c =>
              simp only [hf] at h
              cases hw : writeFile c (r1 :: r2) d with
              | none => simp [hw] at h
              | some c' =>
                simp only [hw, Option.some.injEq] at h
                rw [← h]
                simp [FSTree.lookup, findChild_setChild_self, hf, ih hw qrest hq hp]
        · -- sibling subtrees are untouched
          cases rest with
          | nil =>
            simp only [writeFile] at h
            cases hf : findChild cs n with
            | some c =>
              cases c with
              | dir _ => simp [hf] at h
              | file d0 =>
                simp only [hf, Option.some.injEq] at h
                rw [← h]
                simp [FSTree.lookup, findChild_setChild_other _ _ _ _ hmn]
            | none =>
              simp only [hf, Option.some.injEq] at h
              rw [← h]
              simp [FSTree.lookup, findChild_append_other _ _ _ _ hmn]
          | cons r1 r2 =>
            simp only [writeFile] at h
            cases hf : findChild cs n with
            | none => simp [hf] at h
            | some c =>
              simp only [hf] at h
              cases hw : writeFile c (r1 :: r2) d with
              | none => simp [hw] at h
              | some c' =>
                simp only [hw, Option.some.injEq] at h
                rw [← h]
                simp [FSTree.lookup, findChild_setChild_other _ _ _ _ hmn]

theorem writeFile_ext {fs fs' : FSTree} {p : List String} {d : FileData}
    (h : writeFile fs p d = some fs') :
    ∀ q, isInit p q = true → p ≠ q → fs'.lookup q = none ∧ fs.lookup q = none := by
  induction p generalizing fs fs' with
  | nil => cases fs with
    | file _ => simp [writeFile] at h
    | dir _ => simp [writeFile] at h
  | cons n rest ih =>
    cases fs with
    | file _ => simp [writeFile] at h
    | dir cs =>
      intro q hq hne
      cases q with
      | nil => simp [isInit] at hq
      | cons m qrest =>
        simp only [isInit, Bool.and_eq_true, beq_iff_eq] at hq
        obtain ⟨rfl, hq⟩ := hq
        cases rest with
        | nil =>
          have hqr : qrest ≠ [] := by
            intro hcon
            exact hne (by rw [hcon])
          cases qrest with
          | nil => exact absurd rfl hqr
          | cons x xs =>
            simp only [writeFile] at h
            cases hf : findChild cs n with
            | some c =>
              cases c with
              | dir _ => simp [hf] at h
              | file d0 =>
                simp only [hf, Option.some.injEq] at h
                rw [← h]
                constructor
                · simp [FSTree.lookup, findChild_setChild_self]
                · simp [FSTree.lookup, hf]
            | none =>
              simp only [hf, Option.some.injEq] at h
              rw [← h]
              constructor
              · simp [FSTree.lookup, findChild_append_self _ hf]
              · simp [FSTree.lookup, hf]
        | cons r1 r2 =>
          cases qrest with
          | nil => simp [isInit] at hq
          | cons x xs =>
            simp only [writeFile] at h
            cases hf : findChild cs n with
            | none => simp [hf] at h
            | some c =>
              simp only [hf] at h
              cases hw : writeFile c (r1 :: r2) d with
              | none => simp [hw] at h
              | some c' =>
                simp only [hw, Option.some.injEq] at h
                have hne' : r1 :: r2 ≠ x :: xs := by
                  intro hcon
                  exact hne (by rw [hcon])
                have := ih hw (x :: xs) hq hne'
                rw [← h]
                constructor
                · simp [FSTree.lookup, findChild_setChild_self, this.1]
                · simp [FSTree.lookup, hf, this.2]

theorem writeFile_mono {fs fs' : FSTree} {p : List String} {d : FileData}
    (h : writeFile fs p d = some fs') :
    ∀ q, (fs.lookup q).isSome → (fs'.lookup q).isSome := by
  intro q hq
  cases hqp : isInit q p with
  | false =>
    cases hpq : isInit p q with
    | false => rw [writeFile_frame h q hqp hpq]; exact hq
    | true =>
      by_cases hne : p = q
      · subst hne
        simp [writeFile_self h]
      · rw [(writeFile_ext h q hpq hne).2] at hq
        simp at hq
  | true =>
    have hs : (fs'.lookup p).isSome := by simp [writeFile_self h]
    exact lookup_isSome_of_isInit hqp hs

/-- A node that resolves a nonempty path must be a directory. -/
theorem isDir_of_lookup_cons {t : FSTree} {x : String} {xs : List String}
    {u : FSTree} (h : t.lookup (x :: xs) = some u) :
    ∃ cs, t = FSTree.dir cs := by
  cases t with
  | file _ => simp [FSTree.lookup] at h
  | dir cs => exact ⟨cs, rfl⟩

theorem writeFile_parent_dirs {fs fs' : FSTree} {p : List String} {d : FileData}
    (h : writeFile fs p d = some fs') :
    ∀ q, isInit q p = true → q ≠ p → ∃ ds, fs'.lookup q = some (.dir ds) := by
  intro q hq hne
  obtain ⟨e, rfl⟩ := isInit_iff_append.1 hq
  have he : e ≠ [] := by
    intro hcon
    subst hcon
    exact hne (by simp)
  have hp := writeFile_self h
  rw [lookup_append] at hp
  cases hl : fs'.lookup q with
  | none => rw [hl] at hp; simp at hp
  | some t =>
    rw [hl] at hp
    simp only [Option.some_bind] at hp
    cases e with
    | nil => exact absurd rfl he
    | cons x xs =>
      obtain ⟨cs, rfl⟩ := isDir_of_lookup_cons hp
      exact ⟨cs, rfl⟩

theorem writeFile_isSome_of_file {fs : FSTree} {p : List String} {d0 : FileData}
    (h : fs.lookup p = some (.file d0)) (hp : p ≠ []) (d : FileData) :
    (writeFile fs p d).isSome := by
  induction p generalizing fs with
  | nil => exact absurd rfl hp
  | cons n rest ih =>
    cases fs with
    | file _ => simp [FSTree.lookup] at h
    | dir cs =>
      simp only [FSTree.lookup] at h
      cases hf : findChild cs n with
      | none => simp [hf] at h
      | some c =>
        simp only [hf] at h
        cases rest with
        | nil =>
          simp only [FSTree.lookup, Option.some.injEq] at h
          rw [h] at hf
          simp [writeFile, hf]
        | cons r1 r2 =>
          have := @ih c h (by simp)
          simp only [writeFile, hf]
          cases hw : writeFile c (r1 :: r2) d with
          | none => rw [hw] at this; simp at this
          | some c' => simp
/-! ### Walk lemmas -/

theorem visibleFileNames_mem {cs : List (String × FSTree)} {n : String} :
    n ∈ visibleFileNames cs ↔
      (∃ d, (n, FSTree.file d) ∈ cs) ∧ hiddenName n = false := by
  induction cs with
  | nil => simp [visibleFileNames]
  | cons c cs ih =>
    obtain ⟨m, t⟩ := c
    cases t with
    | file d =>
      cases hm : hiddenName m with
      | true =>
        simp only [visibleFileNames, hm, if_true]
        rw [ih]
        constructor
        · rintro ⟨⟨d', hd'⟩, hn⟩
          exact ⟨⟨d', List.mem_cons_of_mem _ hd'⟩, hn⟩
        · rintro ⟨⟨d', hd'⟩, hn⟩
          rcases List.mem_cons.1 hd' with heq | hmem
          · obtain ⟨rfl, rfl⟩ := Prod.mk.injEq .. ▸ And.intro (congrArg Prod.fst heq) (congrArg Prod.snd heq)
            rw [hm] at hn
            exact absurd hn (by simp)
          · exact ⟨⟨d', hmem⟩, hn⟩
      | false =>
        simp only [visibleFileNames, hm, if_false]
        constructor
        · intro hmem
          rcases List.mem_cons.1 hmem with rfl | hmem'
          · exact ⟨⟨d, List.mem_cons_self _ _⟩, hm⟩
          · obtain ⟨⟨d', hd'⟩, hn⟩ := ih.1 hmem'
            exact ⟨⟨d', List.mem_cons_of_mem _ hd'⟩, hn⟩
        · rintro ⟨⟨d', hd'⟩, hn⟩
          rcases List.mem_cons.1 hd' with heq | hmem'
          · have : n = m := congrArg Prod.fst heq
            exact this ▸ List.mem_cons_self _ _
          · exact List.mem_cons_of_mem _ (ih.2 ⟨⟨d', hmem'⟩, hn⟩)
    | dir ds =>
      simp only [visibleFileNames]
      rw [ih]
      constructor
      · rintro ⟨⟨d', hd'⟩, hn⟩
        exact ⟨⟨d', List.mem_cons_of_mem _ hd'⟩, hn⟩
      · rintro ⟨⟨d', hd'⟩, hn⟩
        rcases List.mem_cons.1 hd' with heq | hmem
        · exact absurd (congrArg Prod.snd heq) (by simp)
        · exact ⟨⟨d', hmem⟩, hn⟩

theorem walkSub_mem {cs : List (String × FSTree)} {q : List String} :
    q ∈ walkSub cs ↔
      ∃ n ds, (n, FSTree.dir ds) ∈ cs ∧ hiddenName n = false ∧
        ∃ rest, rest ∈ walkRel (FSTree.dir ds) ∧ q = n :: rest := by
  induction cs with
  | nil => simp [walkSub]
  | cons c cs ih =>
    obtain ⟨m, t⟩ := c
    cases t with
    | file d =>
      simp only [walkSub, List.nil_append]
      rw [ih]
      constructor
      · rintro ⟨n, ds, hmem, hn, rest, hr, rfl⟩
        exact ⟨n, ds, List.mem_cons_of_mem _ hmem, hn, rest, hr, rfl⟩
      · rintro ⟨n, ds, hmem, hn, rest, hr, rfl⟩
        rcases List.mem_cons.1 hmem with heq | hmem'
        · exact absurd (congrArg Prod.snd heq) (by simp)
        · exact ⟨n, ds, hmem', hn, rest, hr, rfl⟩
    | dir ds =>
      cases hm : hiddenName m with
      | true =>
        simp only [walkSub, hm, if_true, List.nil_append]
        rw [ih]
        constructor
        · rintro ⟨n, ds', hmem, hn, rest, hr, rfl⟩
          exact ⟨n, ds', List.mem_cons_of_mem _ hmem, hn, rest, hr, rfl⟩
        · rintro ⟨n, ds', hmem, hn, rest, hr, rfl⟩
          rcases List.mem_cons.1 hmem with heq | hmem'
          · have h1 : n = m := congrArg Prod.fst heq
            rw [h1, hm] at hn
            exact absurd hn (by simp)
          · exact ⟨n, ds', hmem', hn, rest, hr, rfl⟩
      | false =>
        simp only [walkSub, hm, Bool.false_eq_true, if_false, List.mem_append, List.mem_map]
        constructor
        · rintro (⟨rest, hr, rfl⟩ | hsub)
          · exact ⟨m, ds, List.mem_cons_self _ _, hm, rest, hr, rfl⟩
          · obtain ⟨n, ds', hmem, hn, rest, hr, rfl⟩ := ih.1 hsub
            exact ⟨n, ds', List.mem_cons_of_mem _ hmem, hn, rest, hr, rfl⟩
        · rintro ⟨n, ds', hmem, hn, rest, hr, rfl⟩
          rcases List.mem_cons.1 hmem with heq | hmem'
          · have h1 : n = m := congrArg Prod.fst heq
            have h2 : FSTree.dir ds' = FSTree.dir ds := congrArg Prod.snd heq
            subst h1
            rw [show ds' = ds from by injection h2] at hr
            exact Or.inl ⟨rest, hr, rfl⟩
          · exact Or.inr (ih.2 ⟨n, ds', hmem', hn, rest, hr, rfl⟩)
theorem findChild_mem {cs : List (String × FSTree)} {n : String} {t : FSTree}
    (h : findChild cs n = some t) : (n, t) ∈ cs := by
  induction cs with
  | nil => simp [findChild] at h
  | cons c cs ih =>
    cases hc : (c.1 == n) with
    | true =>
      simp only [findChild, hc, if_true, Option.some.injEq] at h
      obtain ⟨a, b⟩ := c
      simp only [beq_iff_eq] at hc
      simp only at hc h
      subst hc
      subst h
      exact List.mem_cons_self _ _
    | false =>
      simp only [findChild, hc, Bool.false_eq_true, if_false] at h
      exact List.mem_cons_of_mem _ (ih h)

theorem mem_findChild_of_nodup {cs : List (String × FSTree)} {n : String}
    {t : FSTree} (hnd : nodupKeys cs = true) (h : (n, t) ∈ cs) :
    findChild cs n = some t := by
  induction cs with
  | nil => simp at h
  | cons c cs ih =>
    simp only [nodupKeys, Bool.and_eq_true, Bool.not_eq_true'] at hnd
    rcases List.mem_cons.1 h with heq | hmem
    · rw [← heq]
      simp [findChild]
    · cases hc : (c.1 == n) with
      | true =>
        -- `n` occurs in `cs`, so `c.1 = n` contradicts key uniqueness
        exfalso
        have : cs.any (fun c' => c'.1 == c.1) = true := by
          refine List.any_eq_true.2 ⟨(n, t), hmem, ?_⟩
          simp only [beq_iff_eq] at hc ⊢
          exact hc.symm
        rw [hnd.1] at this
        exact Bool.false_ne_true this
      | false =>
        simp only [findChild, hc, Bool.false_eq_true, if_false]
        exact ih hnd.2 hmem

theorem wfChildren_mem {cs : List (String × FSTree)} {n : String} {t : FSTree}
    (hwf : wfChildren cs = true) (h : (n, t) ∈ cs) : t.wf = true := by
  induction cs with
  | nil => simp at h
  | cons c cs ih =>
    obtain ⟨m, u⟩ := c
    simp only [wfChildren, Bool.and_eq_true] at hwf
    rcases List.mem_cons.1 h with heq | hmem
    · have : t = u := congrArg Prod.snd heq
      rw [this]
      exact hwf.1
    · exact ih hwf.2 hmem

/-- Elements of the walk are nonempty component paths. -/
theorem walkSub_shape {cs : List (String × FSTree)} {q : List String}
    (h : q ∈ walkSub cs) : ∃ n rest, q = n :: rest := by
  obtain ⟨n, ds, _, _, rest, _, rfl⟩ := walkSub_mem.1 h
  exact ⟨n, rest, rfl⟩

theorem walkRel_shape {t : FSTree} {q : List String} (h : q ∈ walkRel t) :
    ∃ n rest, q = n :: rest := by
  cases t with
  | file d => simp [walkRel] at h
  | dir cs =>
    rcases List.mem_append.1 h with hf | hs
    · obtain ⟨n, _, rfl⟩ := List.mem_map.1 hf
      exact ⟨n, [], rfl⟩
    · exact walkSub_shape hs

/-- Membership characterisation of the archive-population walk over a
well-formed tree: exactly the nonempty relative paths that denote a
regular file and have no hidden component are visited. -/
theorem walkRel_mem : ∀ (t : FSTree), t.wf = true → ∀ (q : List String),
    q ∈ walkRel t ↔
      (q ≠ [] ∧ (∃ d, t.lookup q = some (.file d)) ∧ allVisible q = true) := by
  intro t
  match t with
  | .file d =>
    intro _ q
    simp only [walkRel, List.not_mem_nil, false_iff]
    rintro ⟨hne, ⟨d', hd'⟩, -⟩
    cases q with
    | nil => exact hne rfl
    | cons x xs => simp [FSTree.lookup] at hd'
  | .dir cs =>
    intro hwf q
    have hwf' := hwf
    simp only [FSTree.wf, Bool.and_eq_true] at hwf'
    obtain ⟨hnd, hch⟩ := hwf'
    cases q with
    | nil =>
      simp only [ne_eq, not_true_eq_false, false_and, iff_false]
      intro hmem
      obtain ⟨n, rest, h⟩ := walkRel_shape hmem
      exact List.cons_ne_nil _ _ h.symm
    | cons m qrest =>
      simp only [walkRel, List.mem_append, List.mem_map]
      constructor
      · rintro (⟨n, hn, heq⟩ | hsub)
        · -- a visible file of this directory
          injection heq with h1 h2
          subst h1
          subst h2
          obtain ⟨⟨d, hd⟩, hvis⟩ := visibleFileNames_mem.1 hn
          refine ⟨by simp, ⟨d, ?_⟩, ?_⟩
          · simp [FSTree.lookup, mem_findChild_of_nodup hnd hd]
          · simp [allVisible, hvis]
        · -- inside a visible subdirectory
          rcases walkSub_mem.1 hsub with ⟨n, ds, hmem, hvis, rest, hr, heq⟩
          injection heq with h1 h2
          subst h1
          subst h2
          have hwfd : (FSTree.dir ds).wf = true := wfChildren_mem hch hmem
          obtain ⟨hne', ⟨d, hd⟩, hvis'⟩ := (walkRel_mem (FSTree.dir ds) hwfd qrest).1 hr
          refine ⟨by simp, ⟨d, ?_⟩, ?_⟩
          · simp [FSTree.lookup, mem_findChild_of_nodup hnd hmem, hd]
          · simp only [allVisible, List.all_cons, Bool.and_eq_true, Bool.not_eq_true']
            exact ⟨hvis, hvis'⟩
      · rintro ⟨-, ⟨d, hd⟩, hvis⟩
        simp only [FSTree.lookup] at hd
        cases hf : findChild cs m with
        | none => rw [hf] at hd; simp at hd
        | some c =>
          rw [hf] at hd
          simp only [allVisible, List.all_cons, Bool.and_eq_true,
            Bool.not_eq_true'] at hvis
          have hmem := findChild_mem hf
          cases c with
          | file d0 =>
            left
            refine ⟨m, ?_, ?_⟩
            · exact visibleFileNames_mem.2 ⟨⟨d0, hmem⟩, hvis.1⟩
            · cases qrest with
              | nil => rfl
              | cons x xs => simp [FSTree.lookup] at hd
          | dir ds =>
            right
            have hwfd : (FSTree.dir ds).wf = true := wfChildren_mem hch hmem
            have hqr : qrest ∈ walkRel (FSTree.dir ds) := by
              refine (walkRel_mem (FSTree.dir ds) hwfd qrest).2 ⟨?_, ⟨d, hd⟩, ?_⟩
              · intro hcon
                subst hcon
                simp [FSTree.lookup] at hd
              · exact hvis.2
            exact walkSub_mem.2 ⟨m, ds, hmem, hvis.1, qrest, hqr, rfl⟩
  termination_by t => sizeOf t
  decreasing_by
    all_goals
      simp_wf
      have h1 := List.sizeOf_lt_of_mem hmem
      simp only [Prod.mk.sizeOf_spec, FSTree.dir.sizeOf_spec] at h1 ⊢
      omega
/-! ### Archive-name arithmetic -/

/-- `file_path.relative_to(skill_path.parent)` on a walk result: dropping
the parent prefix leaves the source directory's own name followed by the
path relative to the source directory. -/
theorem drop_dropLast_append {sp : List String} (q : List String)
    (h : sp ≠ []) : (sp ++ q).drop sp.dropLast.length = lastName sp :: q := by
  induction sp with
  | nil => exact absurd rfl h
  | cons a as ih =>
    cases as with
    | nil => simp [lastName]
    | cons b bs =>
      have hne : b :: bs ≠ [] := by simp
      have := ih hne
      simp only [List.dropLast, List.length_cons, List.cons_append, List.drop_succ_cons]
      rw [show lastName (a :: b :: bs) = lastName (b :: bs) from rfl]
      simpa using this

/-! ### Inversion of a successful `package_skill` run -/

theorem package_skill_ok_inv {fs : FSTree} {sp od : List String} {r : String}
    {st : PackState} (h : package_skill fs sp od = .ok r st) :
    ∃ fs₁ fs₂ fs₃,
      (fs.lookup (sp ++ ["SKILL.md"])).isSome = true ∧
      mkdirp fs od = some fs₁ ∧
      writeFile fs₁ (od ++ [lastName sp ++ ".skill"]) (.zip []) = some fs₂ ∧
      writeFile fs₂ (od ++ [lastName sp ++ ".skill"])
        (.zip (((walkRel ((fs₂.lookup sp).getD (.file (.bytes [])))).map
            (fun q => sp ++ q)).map (fun p =>
          (relStr (p.drop sp.dropLast.length), readData fs₂ p)))) = some fs₃ ∧
      r = pathStr (od ++ [lastName sp ++ ".skill"]) ∧
      st.fs = fs₃ ∧
      st.stdout = ["Packaged: " ++ pathStr (od ++ [lastName sp ++ ".skill"]) ++ " ("
        ++ toString (FileData.size (readData fs₃ (od ++ [lastName sp ++ ".skill"])))
        ++ " bytes)"] ∧
      st.stderr = [] := by
  rw [package_skill] at h
  by_cases h0 : (fs.lookup (sp ++ ["SKILL.md"])).isNone
  · rw [if_pos h0] at h
    cases h
  · rw [if_neg h0] at h
    cases h1 : mkdirp fs od with
    | none => rw [h1] at h; cases h
    | some fs₁ =>
      rw [h1] at h
      simp only at h
      cases h2 : writeFile fs₁ (od ++ [lastName sp ++ ".skill"]) (.zip []) with
      | none => rw [h2] at h; cases h
      | some fs₂ =>
        rw [h2] at h
        simp only at h
        cases h3 : writeFile fs₂ (od ++ [lastName sp ++ ".skill"])
            (.zip (((walkRel ((fs₂.lookup sp).getD (.file (.bytes [])))).map
                (fun q => sp ++ q)).map (fun p =>
              (relStr (p.drop sp.dropLast.length), readData fs₂ p)))) with
        | none => rw [h3] at h; cases h
        | some fs₃ =>
          rw [h3] at h
          simp only [PackResult.ok.injEq] at h
          refine ⟨fs₁, fs₂, fs₃, ?_, rfl, h2, h3, h.1.symm, ?_, ?_, ?_⟩
          · cases hl : fs.lookup (sp ++ ["SKILL.md"]) with
            | none => rw [hl] at h0; simp at h0
            | some t => simp
          · rw [← h.2]
          · rw [← h.2]
          · rw [← h.2]
/-! ### Further path lemmas -/

theorem relStr_cons (x : String) {q : List String} (h : q ≠ []) :
    relStr (x :: q) = x ++ "/" ++ relStr q := by
  cases q with
  | nil => exact absurd rfl h
  | cons y ys => rfl

theorem isInit_append_left (p a b : List String) :
    isInit (p ++ a) (p ++ b) = isInit a b := by
  induction p with
  | nil => rfl
  | cons x xs ih => simp [isInit, ih]

theorem isInit_snoc_cases {q p : List String} {x : String}
    (h : isInit q (p ++ [x]) = true) : isInit q p = true ∨ q = p ++ [x] := by
  obtain ⟨e, he⟩ := isInit_iff_append.1 h
  rcases List.eq_nil_or_concat e with rfl | ⟨e', a, rfl⟩
  · right
    rw [he]
    simp
  · left
    rw [List.concat_eq_append, ← List.append_assoc] at he
    have hlen : ([x] : List String).length = ([a] : List String).length := rfl
    obtain ⟨h1, -⟩ := List.append_inj' he.symm hlen
    exact isInit_iff_append.2 ⟨e', h1.symm⟩

/-- Every initial segment of a path that resolves inside a tree resolves
to a directory, provided the full path resolves to a directory. -/
theorem dirs_along {fs : FSTree} {p : List String}
    {ds : List (String × FSTree)} (h : fs.lookup p = some (.dir ds)) :
    ∀ q, isInit q p = true → ∃ ds', fs.lookup q = some (.dir ds') := by
  intro q hq
  obtain ⟨e, rfl⟩ := isInit_iff_append.1 hq
  rw [lookup_append] at h
  cases hl : fs.lookup q with
  | none => rw [hl] at h; simp at h
  | some t =>
    rw [hl] at h
    simp only [Option.some_bind] at h
    cases e with
    | nil =>
      simp only [FSTree.lookup, Option.some.injEq] at h
      exact ⟨ds, by rw [h]⟩
    | cons x xs =>
      obtain ⟨cs, rfl⟩ := isDir_of_lookup_cons h
      exact ⟨cs, rfl⟩

theorem ne_snoc_self (p : List String) (x : String) : p ≠ p ++ [x] := by
  intro h
  have := congrArg List.length h
  simp at this
/-! ### Claims -/

/-- Claim C7: invoked with zero arguments for `skill-path` (only the
program name in `argv`), the program prints the usage message to the
error stream and exits with status 1, leaving the filesystem untouched
and printing nothing to standard output — the packaging operation is
never invoked. -/
theorem c7_usage_exit (fs : FSTree) (cwd : List String) (prog : String) :
    mainEntry fs cwd [prog] =
      .exit1 ⟨fs, [], ["Usage: " ++ prog ++ " <skill-path> [output-dir]"]⟩ := rfl

/-- Claim C2: on the `skills/demo` example with no `output-dir`
argument, the run succeeds, `dist/demo.skill` holds exactly the entries
`demo/SKILL.md` and `demo/assets/logo.png` in that order, and standard
output is one line holding the output path (so the substring
`dist/demo.skill`) and the byte count that `stat` reports for the
written file. -/
theorem c2_demo_end_to_end :
    demoRun.isOk = true ∧
    archiveNames demoRun.state.fs ["dist", "demo.skill"]
      = ["demo/SKILL.md", "demo/assets/logo.png"] ∧
    demoRun.state.stdout
      = ["Packaged: " ++ pathStr ["dist", "demo.skill"] ++ " ("
          ++ toString (FileData.size (readData demoRun.state.fs ["dist", "demo.skill"]))
          ++ " bytes)"] ∧
    chSub "dist/demo.skill".toList (String.join demoRun.state.stdout).toList
      = true := by decide

/-- Claim C9: packaging a directory into itself: the archive file is
created by opening the zip before the walk starts, is not hidden, and is
therefore picked up by the walk — the produced archive contains an entry
naming the archive file itself (`s/s.skill`, the output path relative to
the source directory's parent). -/
theorem c9_archive_contains_itself :
    selfRun.isOk = true ∧
    relStr (["s", "s.skill"].drop (["s"] : List String).dropLast.length)
        ∈ archiveNames selfRun.state.fs ["s", "s.skill"] ∧
    selfRun.ret = pathStr ["s", "s.skill"] := by decide

/-- Claim C1, counterexample: a directory named `SKILL.md` passes the
`exists()` check even though `SKILL.md` does not exist as a regular
file, so the packager does not exit with status 1 — it succeeds. -/
theorem c1_counterexample :
    isFileAt dirManifestFS ["s", "SKILL.md"] = false ∧
    (package_skill dirManifestFS ["s"] ["out"]).isExit1 = false ∧
    (package_skill dirManifestFS ["s"] ["out"]).isOk = true := by decide

/-- Claim C1, amended: `package_skill` terminates with exit status 1 and
the diagnostic on the error stream if and only if the `exists()` check
on `<skill_path>/SKILL.md` fails, i.e. iff nothing (regular file or
directory) exists at that path; in that failure case the filesystem is
untouched — no output directory and no archive file is created — and
nothing is printed to standard output. -/
theorem c1_exit1_iff_exists_check_fails (fs : FSTree) (sp od : List String) :
    ((package_skill fs sp od).isExit1 = true
        ↔ existsAt fs (sp ++ ["SKILL.md"]) = false) ∧
    (existsAt fs (sp ++ ["SKILL.md"]) = false →
      package_skill fs sp od =
        .exit1 ⟨fs, [], ["Error: " ++ pathStr sp ++ "/SKILL.md not found"]⟩) := by
  cases hl : fs.lookup (sp ++ ["SKILL.md"]) with
  | none =>
    have hrun : package_skill fs sp od =
        .exit1 ⟨fs, [], ["Error: " ++ pathStr sp ++ "/SKILL.md not found"]⟩ := by
      rw [package_skill, hl]
      rfl
    rw [hrun]
    constructor
    · simp [PackResult.isExit1, existsAt, hl]
    · intro _
      rfl
  | some t =>
    have hex : existsAt fs (sp ++ ["SKILL.md"]) = true := by
      simp [existsAt, hl]
    constructor
    · rw [hex]
      refine iff_of_false ?_ (by simp)
      intro hcon
      rw [package_skill, hl] at hcon
      simp only [Option.isNone_some, Bool.false_eq_true, if_false] at hcon
      cases hm : mkdirp fs od with
      | none => rw [hm] at hcon; simp [PackResult.isExit1] at hcon
      | some fs₁ =>
        rw [hm] at hcon
        simp only at hcon
        cases hw : writeFile fs₁ (od ++ [lastName sp ++ ".skill"]) (.zip []) with
        | none => rw [hw] at hcon; simp [PackResult.isExit1] at hcon
        | some fs₂ =>
          rw [hw] at hcon
          simp only at hcon
          cases hw2 : writeFile fs₂ (od ++ [lastName sp ++ ".skill"])
              (.zip (((walkRel ((fs₂.lookup sp).getD (.file (.bytes [])))).map
                  (fun q => sp ++ q)).map (fun p =>
                (relStr (p.drop sp.dropLast.length), readData fs₂ p)))) with
          | none => rw [hw2] at hcon; simp [PackResult.isExit1] at hcon
          | some fs₃ => rw [hw2] at hcon; simp [PackResult.isExit1] at hcon
    · rw [hex]
      intro hcon
      cases hcon

/-- Claim C1, witness for the amended theorem at a concrete input: the
empty root directory has no `SKILL.md`, so packaging exits with the
diagnostic and changes nothing. -/
theorem c1_witness :
    package_skill (FSTree.dir []) ["s"] ["out"] =
      .exit1 ⟨FSTree.dir [], [],
        ["Error: " ++ pathStr ["s"] ++ "/SKILL.md not found"]⟩ :=
  (c1_exit1_iff_exists_check_fails (FSTree.dir []) ["s"] ["out"]).2 rfl
/-- Claim C8: on success, `package_skill` returns the absolute path of
the written archive file — the resolved output directory joined with
`<source basename>.skill` — and the archive is indeed on disk at that
path. -/
theorem c8_returns_archive_path (fs : FSTree) (sp od : List String)
    (r : String) (st : PackState) (h : package_skill fs sp od = .ok r st) :
    r = pathStr (od ++ [lastName sp ++ ".skill"]) ∧
    ∃ es, st.fs.lookup (od ++ [lastName sp ++ ".skill"])
      = some (.file (.zip es)) := by
  obtain ⟨fs₁, fs₂, fs₃, hskill, hmk, hw1, hw2, hr, hfs, hout, herr⟩ :=
    package_skill_ok_inv h
  refine ⟨hr, ?_⟩
  rw [hfs]
  exact ⟨_, writeFile_self hw2⟩

/-- Claim C8, witness: packaging `/s` into `/out` returns
`/out/s.skill`. -/
theorem c8_witness :
    (package_skill wFS ["s"] ["out"]).ret
      = pathStr (["out"] ++ [lastName ["s"] ++ ".skill"]) :=
  (c8_returns_archive_path wFS ["s"] ["out"]
    (package_skill wFS ["s"] ["out"]).ret
    (package_skill wFS ["s"] ["out"]).state rfl).1

/-- Claim C5: a successful run writes exactly one file into the output
directory, named `<source basename>.skill` (overwriting any previous
file of that name): the archive is at that name, and every other name
directly inside the output directory is exactly as it was before the
run. -/
theorem c5_single_output_file (fs : FSTree) (sp od : List String)
    (r : String) (st : PackState) (h : package_skill fs sp od = .ok r st) :
    (∃ es, st.fs.lookup (od ++ [lastName sp ++ ".skill"])
      = some (.file (.zip es))) ∧
    ∀ n, n ≠ lastName sp ++ ".skill" →
      st.fs.lookup (od ++ [n]) = fs.lookup (od ++ [n]) := by
  obtain ⟨fs₁, fs₂, fs₃, hskill, hmk, hw1, hw2, hr, hfs, hout, herr⟩ :=
    package_skill_ok_inv h
  constructor
  · rw [hfs]
    exact ⟨_, writeFile_self hw2⟩
  · intro n hn
    have hqp : isInit (od ++ [n]) (od ++ [lastName sp ++ ".skill"]) = false := by
      rw [isInit_append_left]
      simp [isInit, hn]
    have hpq : isInit (od ++ [lastName sp ++ ".skill"]) (od ++ [n]) = false := by
      rw [isInit_append_left]
      simp [isInit, Ne.symm hn]
    rw [hfs, writeFile_frame hw2 _ hqp hpq, writeFile_frame hw1 _ hqp hpq,
      mkdirp_frame hmk _ (isInit_snoc_self od n)]

/-- Claim C5, witness: after packaging `/s` into `/out`, a different
name inside `/out` is untouched. -/
theorem c5_witness :
    (package_skill wFS ["s"] ["out"]).state.fs.lookup (["out"] ++ ["other"])
      = wFS.lookup (["out"] ++ ["other"]) :=
  (c5_single_output_file wFS ["s"] ["out"]
    (package_skill wFS ["s"] ["out"]).ret
    (package_skill wFS ["s"] ["out"]).state rfl).2 "other" (by decide)

/-- Claim C4: every entry name of the produced archive is the file's
path relative to the parent of the resolved source path: the source
directory's final component followed by a slash and the forward-slash
joined path below the source directory.  (Needs the source path to be
nonempty, i.e. not the filesystem root.) -/
theorem c4_entry_names_rooted (fs : FSTree) (sp od : List String)
    (r : String) (st : PackState) (h : package_skill fs sp od = .ok r st)
    (hsp : sp ≠ []) :
    ∀ e ∈ archiveNames st.fs (od ++ [lastName sp ++ ".skill"]),
      ∃ q, q ≠ [] ∧ e = relStr (lastName sp :: q) ∧
        e = lastName sp ++ "/" ++ relStr q := by
  obtain ⟨fs₁, fs₂, fs₃, hskill, hmk, hw1, hw2, hr, hfs, hout, herr⟩ :=
    package_skill_ok_inv h
  intro e he
  rw [hfs] at he
  rw [archiveNames] at he
  rw [writeFile_self hw2] at he
  simp only [List.map_map, List.mem_map, Function.comp] at he
  obtain ⟨q, hq, rfl⟩ := he
  obtain ⟨n, rest, rfl⟩ := walkRel_shape hq
  refine ⟨n :: rest, by simp, ?_, ?_⟩
  · rw [drop_dropLast_append _ hsp]
  · rw [drop_dropLast_append _ hsp, relStr_cons _ (by simp)]

/-- Claim C4, witness: the single entry of the `/s` package is rooted
under `s/`. -/
theorem c4_witness :
    ∃ q, q ≠ [] ∧ "s/SKILL.md" = relStr (lastName ["s"] :: q) ∧
      "s/SKILL.md" = lastName ["s"] ++ "/" ++ relStr q :=
  c4_entry_names_rooted wFS ["s"] ["out"]
    (package_skill wFS ["s"] ["out"]).ret
    (package_skill wFS ["s"] ["out"]).state rfl (by simp)
    "s/SKILL.md" (by decide)
/-- Claim C3: over any well-formed directory tree, the archive
population walk visits exactly the nonempty relative paths that lead to
a regular file through no hidden component: a file inside a hidden
subdirectory is pruned, a hidden file is skipped, every other file is
added. -/
theorem c3_hidden_exclusion (t : FSTree) (hwf : t.wf = true)
    (q : List String) :
    q ∈ walkRel t ↔
      (q ≠ [] ∧ (∃ d, t.lookup q = some (.file d)) ∧ allVisible q = true) :=
  walkRel_mem t hwf q

/-- Claim C3, witness: in a tree with a hidden file `.env`, a hidden
subdirectory `.git` holding `config`, and a visible `a/b`, the walk
takes `a/b` and leaves out `.env` and `.git/config`. -/
theorem c3_witness :
    ["a", "b"] ∈ walkRel hiddenFS ∧
    [".env"] ∉ walkRel hiddenFS ∧
    [".git", "config"] ∉ walkRel hiddenFS := by
  refine ⟨?_, ?_, ?_⟩
  · exact (c3_hidden_exclusion hiddenFS (by decide) ["a", "b"]).2
      ⟨by simp, ⟨.bytes [], rfl⟩, rfl⟩
  · intro hmem
    have := (c3_hidden_exclusion hiddenFS (by decide) [".env"]).1 hmem
    have hv := this.2.2
    simp [allVisible, hiddenName] at hv
  · intro hmem
    have := (c3_hidden_exclusion hiddenFS (by decide) [".git", "config"]).1 hmem
    have hv := this.2.2
    simp [allVisible, hiddenName] at hv

/-- Claim C10: when the resolved output directory neither contains nor
is contained in the source directory, a successful run leaves the whole
source subtree untouched, and the only locations whose content differs
afterwards are the output directory (with the ancestors through which it
was created) and the archive file inside it. -/
theorem c10_frame (fs : FSTree) (sp od : List String) (r : String)
    (st : PackState) (h : package_skill fs sp od = .ok r st)
    (hso : isInit sp od = false) (hos : isInit od sp = false) :
    (∀ q, isInit sp q = true → st.fs.lookup q = fs.lookup q) ∧
    (∀ q, st.fs.lookup q ≠ fs.lookup q →
      isInit q od = true ∨ q = od ++ [lastName sp ++ ".skill"]) := by
  obtain ⟨fs₁, fs₂, fs₃, hskill, hmk, hw1, hw2, hr, hfs, hout, herr⟩ :=
    package_skill_ok_inv h
  have key : ∀ q, isInit q od = false → q ≠ od ++ [lastName sp ++ ".skill"] →
      st.fs.lookup q = fs.lookup q := by
    intro q hq1 hq2
    have hstep1 : fs₁.lookup q = fs.lookup q := mkdirp_frame hmk q hq1
    have hqp : isInit q (od ++ [lastName sp ++ ".skill"]) = false := by
      cases hcase : isInit q (od ++ [lastName sp ++ ".skill"]) with
      | false => rfl
      | true =>
        rcases isInit_snoc_cases hcase with hinit | heq
        · rw [hinit] at hq1; cases hq1
        · exact absurd heq hq2
    cases hpq : isInit (od ++ [lastName sp ++ ".skill"]) q with
    | false =>
      rw [hfs, writeFile_frame hw2 q hqp hpq, writeFile_frame hw1 q hqp hpq,
        hstep1]
    | true =>
      -- `q` lies strictly below the archive file: absent before and after
      have hne : od ++ [lastName sp ++ ".skill"] ≠ q := by
        intro hcon
        exact hq2 hcon.symm
      have e1 := writeFile_ext hw1 q hpq hne
      have e2 := writeFile_ext hw2 q hpq hne
      rw [hfs, e2.1, ← hstep1, e1.2]
  constructor
  · intro q hq
    by_cases h1 : isInit q od = true
    · exact absurd (isInit_trans hq h1) (by rw [hso]; simp)
    · by_cases h2 : q = od ++ [lastName sp ++ ".skill"]
      · exfalso
        rw [h2] at hq
        rcases isInit_snoc_cases hq with hinit | heq
        · rw [hinit] at hso; cases hso
        · rw [heq] at hos
          rw [isInit_append ..] at hos
          cases hos
      · exact key q (Bool.not_eq_true _ ▸ h1) h2
  · intro q hchg
    by_contra hcon
    push_neg at hcon
    exact hchg (key q (Bool.not_eq_true _ ▸ hcon.1) hcon.2)

/-- Claim C10, witness: packaging `/s` into the disjoint `/out` leaves
the source directory's subtree exactly as it was. -/
theorem c10_witness :
    (package_skill wFS ["s"] ["out"]).state.fs.lookup ["s"]
      = wFS.lookup ["s"] :=
  (c10_frame wFS ["s"] ["out"]
    (package_skill wFS ["s"] ["out"]).ret
    (package_skill wFS ["s"] ["out"]).state rfl (by decide) (by decide)).1
    ["s"] (by decide)

/-- Claim C6: output-directory creation is idempotent.  Creating the
output directory succeeds exactly as `mkdir -p` would: after a
successful `mkdirp` the target and all its ancestors are directories;
when the target already is a directory (empty or not) `mkdirp` succeeds
and changes nothing; and a successful packaging run can be repeated at
once with the same output directory, succeeding again. -/
theorem c6_output_dir_idempotent :
    (∀ (fs fs' : FSTree) (od : List String), mkdirp fs od = some fs' →
      ∀ q, isInit q od = true → ∃ ds, fs'.lookup q = some (.dir ds)) ∧
    (∀ (fs : FSTree) (od : List String) (ds : List (String × FSTree)),
      fs.lookup od = some (.dir ds) → mkdirp fs od = some fs) ∧
    (∀ (fs : FSTree) (sp od : List String) (r : String) (st : PackState),
      package_skill fs sp od = .ok r st →
      (package_skill st.fs sp od).isOk = true) := by
  refine ⟨?_, ?_, ?_⟩
  · intro fs fs' od hmk q hq
    obtain ⟨ds, hds⟩ := mkdirp_isDir hmk
    exact dirs_along hds q hq
  · intro fs od ds hds
    exact mkdirp_of_dir hds
  · intro fs sp od r st h
    obtain ⟨fs₁, fs₂, fs₃, hskill, hmk, hw1, hw2, hr, hfs, hout, herr⟩ :=
      package_skill_ok_inv h
    -- facts about the state after the first run
    have harc : fs₃.lookup (od ++ [lastName sp ++ ".skill"])
        = some (.file (.zip _)) := writeFile_self hw2
    have hskill₃ : (fs₃.lookup (sp ++ ["SKILL.md"])).isSome := by
      refine writeFile_mono hw2 _ (writeFile_mono hw1 _ (mkdirp_mono hmk _ ?_))
      exact hskill
    have hod : ∃ ds, fs₃.lookup od = some (.dir ds) := by
      refine writeFile_parent_dirs hw2 od (isInit_append ..) ?_
      exact ne_snoc_self od _
    obtain ⟨ds₃, hds₃⟩ := hod
    -- replay the second run
    rw [package_skill]
    have hnone : (fs₃.lookup (sp ++ ["SKILL.md"])).isNone = false := by
      cases hl : fs₃.lookup (sp ++ ["SKILL.md"]) with
      | none => rw [hl] at hskill₃; simp at hskill₃
      | some u => rfl
    rw [hfs, if_neg (by rw [hnone]; simp)]
    rw [mkdirp_of_dir hds₃]
    simp only
    have hw1' : (writeFile fs₃ (od ++ [lastName sp ++ ".skill"]) (.zip [])).isSome :=
      writeFile_isSome_of_file harc (by simp) _
    cases hw1c : writeFile fs₃ (od ++ [lastName sp ++ ".skill"]) (.zip []) with
    | none => rw [hw1c] at hw1'; simp at hw1'
    | some fs₂' =>
      simp only
      have harc' := writeFile_self hw1c
      have hw2' : (writeFile fs₂' (od ++ [lastName sp ++ ".skill"])
          (.zip (((walkRel ((fs₂'.lookup sp).getD (.file (.bytes [])))).map
              (fun q => sp ++ q)).map (fun p =>
            (relStr (p.drop sp.dropLast.length), readData fs₂' p))))).isSome :=
        writeFile_isSome_of_file harc' (by simp) _
      cases hw2c : writeFile fs₂' (od ++ [lastName sp ++ ".skill"])
          (.zip (((walkRel ((fs₂'.lookup sp).getD (.file (.bytes [])))).map
              (fun q => sp ++ q)).map (fun p =>
            (relStr (p.drop sp.dropLast.length), readData fs₂' p)))) with
      | none => rw [hw2c] at hw2'; simp at hw2'
      | some fs₃' => rfl

/-- Claim C6, witness: the concrete `/s` packaging run into `/out`
succeeds again when repeated. -/
theorem c6_witness :
    (package_skill (package_skill wFS ["s"] ["out"]).state.fs ["s"] ["out"]).isOk
      = true :=
  c6_output_dir_idempotent.2.2 wFS ["s"] ["out"]
    (package_skill wFS ["s"] ["out"]).ret
    (package_skill wFS ["s"] ["out"]).state rfl
